import Mathlib

/-!
Verification development for the cost-saturation heuristic core of the
scorpion planner (files under `src/search/cost_saturation/` and
`src/search/algorithms/array_pool.h`).

The C++ code is shallowly embedded: pure functions become Lean functions,
the stateful pool-generation loops become explicit state passing with a
fuel argument for the unbounded sampling loop, and external collaborators
(order generator, saturation function, diversifier, sampler, timer, rng)
become oracle fields of an environment record, indexed by call count where
the C++ makes repeated calls.  Machine `int` values are modelled as `Int`.
-/

namespace CostSaturation

/-- The infinite heuristic sentinel.  In the C++ code `INF` is
`numeric_limits<int>::max()` (declared in a header not shipped here);
the heuristic-value type is `int`. -/
def INF : Int := 2147483647

/-- Modelled from the spec: the `DEAD_END` sentinel of the search layer's
`Heuristic` interface (header not shipped here).  `compute_heuristic`
returns it for states certified unsolvable; the search layer interprets it
as the infinite ("no solution from here") value.  Its concrete numeric
value plays no role below. -/
def DEAD_END : Int := -1

/-! ### Runtime evaluator (`max_cost_partitioning_heuristic.cc`)

`MaxCostPartitioningHeuristic::compute_heuristic(const State &)` first maps
the state to its abstract state ids, asks the `UnsolvabilityHeuristic`
whether these ids are a certified dead end and, if so, returns `DEAD_END`
without touching the pool; otherwise it returns
`compute_max_h_with_statistics(cp_heuristics, abstract_state_ids, ...)`.
We embed the part after the ids are computed: cost-partitioning heuristics
are abstract values of a type `CPH` evaluated by an oracle `evalCp`. -/

/-- Modelled from the spec: `compute_max_h_with_statistics` (defined in
`cost_saturation/utils.cc`, which is not shipped here) returns the maximum
over all pool members' evaluations at the given abstract state ids. -/
def compute_max_h {CPH : Type} (evalCp : CPH → List Int → Int)
    (cp_heuristics : List CPH) (abstract_state_ids : List Int) : Int :=
  cp_heuristics.foldl (fun acc cp => max acc (evalCp cp abstract_state_ids)) 0

/-- Embedding of `MaxCostPartitioningHeuristic::compute_heuristic` after the abstract
state ids have been computed (`max_cost_partitioning_heuristic.cc`,
lines 110-132; the timer calls are pure diagnostics and are dropped). -/
def mcph_compute_heuristic {CPH : Type} (is_unsolvable : List Int → Bool)
    (evalCp : CPH → List Int → Int) (cp_heuristics : List CPH)
    (abstract_state_ids : List Int) : Int :=
  if is_unsolvable abstract_state_ids then
    DEAD_END
  else
    compute_max_h evalCp cp_heuristics abstract_state_ids

/-- The folded maximum never drops below the initial accumulator. -/
lemma le_foldl_max {CPH : Type} (f : CPH → Int) :
    ∀ (l : List CPH) (a : Int), a ≤ l.foldl (fun acc x => max acc (f x)) a := by
  intro l
  induction l with
  | nil => intro a; simp
  | cons z zs ihz =>
    intro a
    simp only [List.foldl_cons]
    exact le_trans (le_max_left _ _) (ihz _)

/-- Every evaluation in the pool is bounded by the folded maximum. -/
lemma foldl_max_le {CPH : Type} (f : CPH → Int) :
    ∀ (l : List CPH) (a : Int), ∀ cp ∈ l, f cp ≤ l.foldl (fun acc x => max acc (f x)) a := by
  intro l
  induction l with
  | nil => intro a cp h; cases h
  | cons x xs ih =>
    intro a cp h
    cases h with
    | head =>
      simp only [List.foldl_cons]
      exact le_trans (le_max_right a (f x)) (le_foldl_max f xs _)
    | tail _ hmem => exact ih _ cp hmem

/-- The folded maximum is the initial accumulator or one of the evaluations. -/
lemma foldl_max_mem {CPH : Type} (f : CPH → Int) :
    ∀ (l : List CPH) (a : Int),
      l.foldl (fun acc x => max acc (f x)) a = a ∨
        ∃ cp ∈ l, l.foldl (fun acc x => max acc (f x)) a = f cp := by
  intro l
  induction l with
  | nil => intro a; exact Or.inl rfl
  | cons x xs ih =>
    intro a
    simp only [List.foldl_cons]
    rcases ih (max a (f x)) with h | ⟨cp, hmem, hcp⟩
    · rcases max_choice a (f x) with hm | hm
      · exact Or.inl (by rw [h, hm])
      · exact Or.inr ⟨x, List.mem_cons_self _ _, by rw [h, hm]⟩
    · exact Or.inr ⟨cp, List.mem_cons_of_mem _ hmem, hcp⟩

/-- C5: for every queried state's abstract state ids, if the
`UnsolvabilityHeuristic` certifies the ids a dead end then
`compute_heuristic` returns the dead-end sentinel immediately and its
result does not depend on the pool at all (no pool member is evaluated);
otherwise it returns the maximum over all pool members' evaluations at
those ids: an upper bound on every member's evaluation that is either one
of those evaluations or the fold's base value `0`. -/
theorem mcph_compute_heuristic_dead_end_short_circuit_and_max {CPH : Type}
    (is_unsolvable : List Int → Bool) (evalCp : CPH → List Int → Int)
    (cp_heuristics : List CPH) (abstract_state_ids : List Int) :
    (is_unsolvable abstract_state_ids = true →
      mcph_compute_heuristic is_unsolvable evalCp cp_heuristics abstract_state_ids = DEAD_END ∧
      ∀ other_pool : List CPH,
        mcph_compute_heuristic is_unsolvable evalCp cp_heuristics abstract_state_ids =
          mcph_compute_heuristic is_unsolvable evalCp other_pool abstract_state_ids) ∧
    (is_unsolvable abstract_state_ids = false →
      (∀ cp ∈ cp_heuristics,
        evalCp cp abstract_state_ids ≤
          mcph_compute_heuristic is_unsolvable evalCp cp_heuristics abstract_state_ids) ∧
      (mcph_compute_heuristic is_unsolvable evalCp cp_heuristics abstract_state_ids = 0 ∨
        ∃ cp ∈ cp_heuristics,
          mcph_compute_heuristic is_unsolvable evalCp cp_heuristics abstract_state_ids =
            evalCp cp abstract_state_ids)) := by
  constructor
  · intro hdead
    constructor
    · simp [mcph_compute_heuristic, hdead]
    · intro other_pool
      simp [mcph_compute_heuristic, hdead]
  · intro halive
    constructor
    · intro cp hmem
      simp only [mcph_compute_heuristic, halive, Bool.false_eq_true, if_false]
      exact foldl_max_le (fun cp => evalCp cp abstract_state_ids) cp_heuristics 0 cp hmem
    · simp only [mcph_compute_heuristic, halive, Bool.false_eq_true, if_false]
      exact foldl_max_mem (fun cp => evalCp cp abstract_state_ids) cp_heuristics 0

/-- Witness for C5 at a concrete input: a two-member pool, an
unsolvability certificate that flags exactly the ids `[7]`, and an
evaluation oracle; both branches of the theorem are exercised. -/
theorem mcph_compute_heuristic_dead_end_short_circuit_and_max_witness :
    mcph_compute_heuristic (fun ids => decide (ids = [7]))
        (fun (cp : Int) ids => cp + ids.length) [3, 5] [7] = DEAD_END ∧
    (4 : Int) ≤ mcph_compute_heuristic (fun ids => decide (ids = [7]))
        (fun (cp : Int) ids => cp + ids.length) [3, 5] [9] :=
  ⟨((mcph_compute_heuristic_dead_end_short_circuit_and_max
      (fun ids => decide (ids = [7])) (fun (cp : Int) ids => cp + ids.length)
      [3, 5] [7]).1 (by decide)).1,
   ((mcph_compute_heuristic_dead_end_short_circuit_and_max
      (fun ids => decide (ids = [7])) (fun (cp : Int) ids => cp + ids.length)
      [3, 5] [9]).2 (by decide)).1 3 (by decide)⟩

/-! ### Compact Array Store (`algorithms/array_pool.h`)

`ArrayPool<Value>` stores the concatenation of all pushed vectors in
`data` and the start offset of each pushed vector in `positions`.
`get_slice(int index)` reads `positions[index]` and, unless `index` is the
last one, `positions[index + 1]`, and returns iterators into `data`.  An
out-of-range `index` makes `positions[index]` an out-of-bounds
`std::vector` access, i.e. a contract violation (undefined behaviour /
an assertion in checked builds); we model that outcome as `none`. -/

structure ArrayPool (α : Type) where
  data : List α
  positions : List Nat

namespace ArrayPool

/-- A default-constructed `ArrayPool` (both vectors empty). -/
def empty (α : Type) : ArrayPool α := ⟨[], []⟩

/-- Embedding of `ArrayPool::push_back`: record the current end of `data` as the new
start offset and append the vector's elements to `data`. -/
def push_back {α : Type} (p : ArrayPool α) (vec : List α) : ArrayPool α :=
  { data := p.data ++ vec, positions := p.positions ++ [p.data.length] }

/-- Embedding of `ArrayPool::size`: the number of vectors pushed so far (`int` in C++). -/
def size {α : Type} (p : ArrayPool α) : Int := (p.positions.length : Int)

/-- Embedding of `ArrayPool::get_slice`: the elements of `data` between
`positions[index]` and either the end of `data` (for the last index) or
`positions[index + 1]`.  An index outside `[0, size())` is an
out-of-bounds access into `positions`: modelled as `none`. -/
def get_slice {α : Type} (p : ArrayPool α) (index : Int) : Option (List α) :=
  if 0 ≤ index ∧ index < p.size then
    some ((p.data.drop (p.positions.getD index.toNat 0)).take
      ((if index = p.size - 1 then p.data.length else p.positions.getD (index.toNat + 1) 0) -
        p.positions.getD index.toNat 0))
  else
    none

/-- Build a pool by pushing the given vectors in order onto an empty pool. -/
def build {α : Type} (pushes : List (List α)) : ArrayPool α :=
  pushes.foldl push_back (empty α)

lemma build_append_singleton {α : Type} (pushes : List (List α)) (v : List α) :
    build (pushes ++ [v]) = push_back (build pushes) v := by
  simp [build, List.foldl_append]

lemma size_push_back {α : Type} (p : ArrayPool α) (v : List α) :
    (p.push_back v).size = p.size + 1 := by
  simp [push_back, size]

@[simp]
lemma size_build {α : Type} (pushes : List (List α)) :
    (build pushes).size = (pushes.length : Int) := by
  induction pushes using List.reverseRecOn with
  | nil => simp [build, empty, size]
  | append_singleton l v ih =>
    rw [build_append_singleton, size_push_back, ih]
    simp

/-- Every stored start offset of a built pool lies within the backing
storage. -/
lemma positions_le_data_length {α : Type} (pushes : List (List α)) :
    ∀ x ∈ (build pushes).positions, x ≤ (build pushes).data.length := by
  induction pushes using List.reverseRecOn with
  | nil => simp [build, empty]
  | append_singleton l v ih =>
    rw [build_append_singleton]
    intro x hx
    simp only [push_back, List.mem_append, List.mem_singleton, List.length_append] at hx ⊢
    rcases hx with hx | hx
    · exact le_trans (ih x hx) (Nat.le_add_right _ _)
    · subst hx
      exact Nat.le_add_right _ _

/-- The stored start offsets of a built pool are sorted. -/
lemma positions_sorted {α : Type} (pushes : List (List α)) :
    (build pushes).positions.Sorted (· ≤ ·) := by
  induction pushes using List.reverseRecOn with
  | nil => simp [build, empty]
  | append_singleton l v ih =>
    rw [build_append_singleton]
    simp only [push_back, List.Sorted]
    rw [List.pairwise_append]
    refine ⟨ih, by simp, ?_⟩
    intro x hx y hy
    rw [List.mem_singleton] at hy
    subst hy
    exact positions_le_data_length l x hx

lemma getD_concat_length {α : Type} (l : List α) (x d : α) :
    (l ++ [x]).getD l.length d = x := by
  rw [List.getD_append_right _ _ _ _ le_rfl]
  simp

/-- Pushing another vector does not change the slice returned for an
already-valid index (for pools whose offsets lie within their backing
storage, as all pools built by `push_back` do). -/
lemma get_slice_push_back {α : Type} (p : ArrayPool α) (v : List α) (index : Int)
    (h0 : 0 ≤ index) (h1 : index < p.size)
    (hwf : ∀ x ∈ p.positions, x ≤ p.data.length) :
    (p.push_back v).get_slice index = p.get_slice index := by
  have hi : index.toNat < p.positions.length := by
    simp only [size] at h1
    omega
  have hcast : (index.toNat : Int) = index := Int.toNat_of_nonneg h0
  have hsize1 : (p.push_back v).size = p.size + 1 := size_push_back p v
  have hc1 : 0 ≤ index ∧ index < (p.push_back v).size := ⟨h0, by omega⟩
  have hc2 : 0 ≤ index ∧ index < p.size := ⟨h0, h1⟩
  have hfirst : (p.push_back v).positions.getD index.toNat 0 =
      p.positions.getD index.toNat 0 := by
    simp only [push_back]
    exact List.getD_append _ _ _ _ hi
  have hfirst_le : p.positions.getD index.toNat 0 ≤ p.data.length := by
    rw [List.getD_eq_getElem _ _ hi]
    exact hwf _ (List.getElem_mem hi)
  have hne : ¬ (index = (p.push_back v).size - 1) := by
    rw [hsize1]
    simp only [size] at h1 ⊢
    omega
  simp only [get_slice, if_pos hc1, if_pos hc2, if_neg hne]
  by_cases hlastidx : index = p.size - 1
  · -- `index` is the last valid index of `p`: the old slice reaches the
    -- end of the old data; the new slice ends at the appended offset.
    have hi1 : index.toNat + 1 = p.positions.length := by
      simp only [size] at hlastidx
      omega
    have hlast' : (p.push_back v).positions.getD (index.toNat + 1) 0 = p.data.length := by
      simp only [push_back]
      rw [hi1]
      exact getD_concat_length _ _ _
    rw [if_pos hlastidx, hfirst, hlast']
    simp only [push_back]
    rw [List.drop_append_of_le_length hfirst_le,
      List.take_append_of_le_length (by rw [List.length_drop])]
  · have hi1 : index.toNat + 1 < p.positions.length := by
      simp only [size] at h1 hlastidx
      omega
    have hlast' : (p.push_back v).positions.getD (index.toNat + 1) 0 =
        p.positions.getD (index.toNat + 1) 0 := by
      simp only [push_back]
      exact List.getD_append _ _ _ _ hi1
    have hlast_le : p.positions.getD (index.toNat + 1) 0 ≤ p.data.length := by
      rw [List.getD_eq_getElem _ _ hi1]
      exact hwf _ (List.getElem_mem hi1)
    rw [if_neg hlastidx, hfirst, hlast']
    simp only [push_back]
    rw [List.drop_append_of_le_length hfirst_le,
      List.take_append_of_le_length (by rw [List.length_drop]; omega)]

/-- The slice of the vector pushed last is exactly that vector. -/
lemma get_slice_build_last {α : Type} (pushes : List (List α)) (v : List α) :
    (build (pushes ++ [v])).get_slice (pushes.length : Int) = some v := by
  rw [build_append_singleton]
  have hlen : (build pushes).positions.length = pushes.length := by
    have := size_build pushes
    simp only [size] at this
    exact_mod_cast this
  have hsize : (push_back (build pushes) v).size = (pushes.length : Int) + 1 := by
    rw [size_push_back, size_build]
  have hc : 0 ≤ (pushes.length : Int) ∧
      (pushes.length : Int) < (push_back (build pushes) v).size :=
    ⟨Int.ofNat_nonneg _, by omega⟩
  have htoNat : ((pushes.length : Int)).toNat = pushes.length := by omega
  have hfirst : (push_back (build pushes) v).positions.getD
      ((pushes.length : Int)).toNat 0 = (build pushes).data.length := by
    simp only [push_back, htoNat]
    rw [← hlen]
    exact getD_concat_length _ _ _
  have hlastidx : (pushes.length : Int) = (push_back (build pushes) v).size - 1 := by
    omega
  simp only [get_slice, if_pos hc, if_pos hlastidx]
  rw [hfirst]
  simp only [push_back, List.length_append]
  rw [List.drop_left]
  congr 1
  rw [List.take_of_length_le]
  omega

lemma get_concat_length {α : Type} (l : List α) (v : α) (h : l.length < (l ++ [v]).length) :
    (l ++ [v]).get ⟨l.length, h⟩ = v := by
  rw [List.get_eq_getElem]
  exact List.getElem_concat_length _ _ _ rfl h

/-- C6: Compact Array Store round trip.  Pushing the vectors
`A₀ … A_(n-1)` in order onto an empty `ArrayPool` makes `size` equal to
`n`, and for every `i < n` the slice at `i` is exactly `Aᵢ` — in
particular a slice requested for an early index after all later pushes
still yields the originally pushed elements in order. -/
theorem array_pool_round_trip {α : Type} (pushes : List (List α)) (i : Nat)
    (h : i < pushes.length) :
    (ArrayPool.build pushes).size = (pushes.length : Int) ∧
    (ArrayPool.build pushes).get_slice (i : Int) = some (pushes.get ⟨i, h⟩) := by
  refine ⟨size_build pushes, ?_⟩
  induction pushes using List.reverseRecOn with
  | nil => cases h
  | append_singleton l v ih =>
    rcases Nat.lt_or_ge i l.length with hil | hil
    · have hstep : (build (l ++ [v])).get_slice (i : Int) =
          (build l).get_slice (i : Int) := by
        rw [build_append_singleton]
        refine get_slice_push_back _ _ _ (Int.ofNat_nonneg _) ?_ (positions_le_data_length l)
        rw [size_build]
        exact_mod_cast hil
      rw [hstep, ih hil]
      congr 1
      rw [List.get_eq_getElem, List.get_eq_getElem, List.getElem_append_left hil]
    · have hi : i = l.length := by
        rw [List.length_append, List.length_singleton] at h
        omega
      subst hi
      rw [get_slice_build_last l v, get_concat_length l v h]

/-- Witness for C6 at a concrete input: three vectors pushed in order;
the middle slice, requested after the later push, is returned intact. -/
theorem array_pool_round_trip_witness :
    (ArrayPool.build ([[10, 20], [], [30]] : List (List Int))).size = (3 : Int) ∧
    (ArrayPool.build ([[10, 20], [], [30]] : List (List Int))).get_slice (0 : Int) =
      some [10, 20] := by
  have h := array_pool_round_trip ([[10, 20], [], [30]] : List (List Int)) 0 (by decide)
  simpa using h

/-- C8: querying `get_slice` outside `[0, len())` is a contract violation
(an out-of-bounds `positions` access, undefined/asserted in C++) and is
modelled as `none`, never as a silently returned slice; for every index
inside `[0, len())` of a pool built by pushes, the accesses are within
bounds: the stored offsets are sorted, every offset lies within the
backing storage, and the slice is defined. -/
theorem array_pool_get_slice_contract {α : Type} (pushes : List (List α)) (index : Int) :
    (¬ (0 ≤ index ∧ index < (ArrayPool.build pushes).size) →
      (ArrayPool.build pushes).get_slice index = none) ∧
    ((ArrayPool.build pushes).positions.Sorted (· ≤ ·)) ∧
    (∀ x ∈ (ArrayPool.build pushes).positions, x ≤ (ArrayPool.build pushes).data.length) ∧
    (0 ≤ index ∧ index < (ArrayPool.build pushes).size →
      ∃ l, (ArrayPool.build pushes).get_slice index = some l) := by
  refine ⟨fun hout => ?_, positions_sorted pushes, positions_le_data_length pushes,
    fun hin => ?_⟩
  · simp only [get_slice, if_neg hout]
  · simp only [get_slice, if_pos hin]
    exact ⟨_, rfl⟩

/-- Witness for C8 at concrete inputs: index `5` (and `-1`) are out of
range for a two-vector pool and yield `none`; index `1` is in range and
yields a slice. -/
theorem array_pool_get_slice_contract_witness :
    (ArrayPool.build ([[1, 2], [3]] : List (List Int))).get_slice (5 : Int) = none ∧
    (∃ l, (ArrayPool.build ([[1, 2], [3]] : List (List Int))).get_slice (1 : Int) = some l) :=
  ⟨(array_pool_get_slice_contract ([[1, 2], [3]] : List (List Int)) 5).1 (by decide),
   (array_pool_get_slice_contract ([[1, 2], [3]] : List (List Int)) 1).2.2.2 (by decide)⟩

end ArrayPool

/-! ### Order completion
(`cost_partitioning_heuristic_collection_generator.cc`, lines 124-132)

The systematic phase completes a canonical partial order: starting from
`used = set(sys_order)` and `order = sys_order`, it walks the shuffled
default order and appends every abstraction id not yet used.  Since `used`
always holds exactly the elements of `order`, this is a fold that appends
an id iff it is not already in the accumulated order. -/

/-- Completion of a canonical partial order `sys_order` by the shuffled
abstraction ids (`rng->shuffle(abstraction_ids)` result passed in as
`shuffled`). -/
def complete_order (sys_order shuffled : List Nat) : List Nat :=
  shuffled.foldl (fun order abs_id => if abs_id ∈ order then order else order ++ [abs_id])
    sys_order

lemma complete_order_step_suffix (order : List Nat) (abs_id : Nat) :
    ∃ t, (if abs_id ∈ order then order else order ++ [abs_id]) = order ++ t := by
  by_cases h : abs_id ∈ order
  · exact ⟨[], by simp [h]⟩
  · exact ⟨[abs_id], by simp [h]⟩

/-- The accumulated order is only ever extended at the back. -/
lemma complete_order_extends (shuffled : List Nat) :
    ∀ sys_order : List Nat, ∃ t, complete_order sys_order shuffled = sys_order ++ t := by
  induction shuffled with
  | nil => intro s; exact ⟨[], by simp [complete_order]⟩
  | cons a rest ih =>
    intro s
    obtain ⟨t₁, ht₁⟩ := complete_order_step_suffix s a
    obtain ⟨t₂, ht₂⟩ := ih (if a ∈ s then s else s ++ [a])
    refine ⟨t₁ ++ t₂, ?_⟩
    simp only [complete_order, List.foldl_cons] at ht₂ ⊢
    rw [ht₂, ht₁, List.append_assoc]

lemma mem_complete_order_of_mem_left (shuffled : List Nat) (sys_order : List Nat)
    (x : Nat) (hx : x ∈ sys_order) : x ∈ complete_order sys_order shuffled := by
  obtain ⟨t, ht⟩ := complete_order_extends shuffled sys_order
  rw [ht]
  exact List.mem_append_left _ hx

lemma mem_complete_order_of_mem_right (shuffled : List Nat) :
    ∀ (sys_order : List Nat) (x : Nat), x ∈ shuffled → x ∈ complete_order sys_order shuffled := by
  induction shuffled with
  | nil => intro s x hx; cases hx
  | cons a rest ih =>
    intro s x hx
    simp only [complete_order, List.foldl_cons]
    rcases List.mem_cons.mp hx with hx | hx
    · subst hx
      apply mem_complete_order_of_mem_left rest
      by_cases h : x ∈ s
      · simp [h]
      · simp [h]
    · exact ih _ x hx

lemma mem_complete_order_cases (shuffled : List Nat) :
    ∀ (sys_order : List Nat) (x : Nat), x ∈ complete_order sys_order shuffled →
      x ∈ sys_order ∨ x ∈ shuffled := by
  induction shuffled with
  | nil => intro s x hx; exact Or.inl (by simpa [complete_order] using hx)
  | cons a rest ih =>
    intro s x hx
    simp only [complete_order, List.foldl_cons] at hx
    rcases ih _ x hx with hmem | hmem
    · by_cases h : a ∈ s
      · rw [if_pos h] at hmem
        exact Or.inl hmem
      · rw [if_neg h] at hmem
        rcases List.mem_append.mp hmem with hmem | hmem
        · exact Or.inl hmem
        · rw [List.mem_singleton] at hmem
          subst hmem
          exact Or.inr (List.mem_cons_self _ _)
    · exact Or.inr (List.mem_cons_of_mem _ hmem)

lemma complete_order_nodup (shuffled : List Nat) :
    ∀ sys_order : List Nat, sys_order.Nodup → (complete_order sys_order shuffled).Nodup := by
  induction shuffled with
  | nil => intro s hs; simpa [complete_order] using hs
  | cons a rest ih =>
    intro s hs
    simp only [complete_order, List.foldl_cons]
    apply ih
    by_cases h : a ∈ s
    · simpa [h] using hs
    · rw [if_neg h]
      rw [List.nodup_append]
      refine ⟨hs, List.nodup_singleton a, ?_⟩
      intro x hx hxa
      rw [List.mem_singleton] at hxa
      subst hxa
      exact h hx

/-- C7: completing a canonical partial order over `n` abstractions with a
shuffled permutation of `0, …, n-1` yields a bijection over abstraction
indices — every index in `[0, n)` occurs exactly once (no duplicates, and
membership is exactly `< n`) — and the canonical partial order is kept as
a prefix of the completed order. -/
theorem complete_order_bijection
    (n : Nat) (sys_order shuffled : List Nat)
    (hnodup : sys_order.Nodup) (hrange : ∀ x ∈ sys_order, x < n)
    (hperm : shuffled.Perm (List.range n)) :
    (complete_order sys_order shuffled).Nodup ∧
    (∀ x, x ∈ complete_order sys_order shuffled ↔ x < n) ∧
    (∃ t, complete_order sys_order shuffled = sys_order ++ t) := by
  refine ⟨complete_order_nodup shuffled sys_order hnodup, fun x => ⟨fun hx => ?_, fun hx => ?_⟩,
    complete_order_extends shuffled sys_order⟩
  · rcases mem_complete_order_cases shuffled sys_order x hx with h | h
    · exact hrange x h
    · exact List.mem_range.mp (hperm.mem_iff.mp h)
  · exact mem_complete_order_of_mem_right shuffled sys_order x
      (hperm.mem_iff.mpr (List.mem_range.mpr hx))

/-- Witness for C7 at a concrete input: the canonical partial order `[1]`
over three abstractions, completed by the shuffle `[2, 0, 1]`. -/
theorem complete_order_bijection_witness :
    (complete_order [1] [2, 0, 1]).Nodup ∧
    (∀ x, x ∈ complete_order [1] [2, 0, 1] ↔ x < 3) ∧
    (∃ t, complete_order [1] [2, 0, 1] = [1] ++ t) :=
  complete_order_bijection 3 [1] [2, 0, 1]
    (by decide) (by decide) (by decide)

/-! ### Sampling the diversification panel
(`cost_partitioning_heuristic_collection_generator.cc`, lines 24-46,
`sample_states_and_return_abstract_state_ids`)

The function first pushes the abstract state ids of the initial state
unconditionally, then keeps sampling random-walk states while fewer than
`num_samples` entries exist and the sampling timer has not expired.  The
timer and the sampler are oracles indexed by the iteration count; each
loop iteration adds exactly one entry, so `num_samples.toNat` fuel is
enough for the loop to run until its condition fails. -/

def sample_states_go (num_samples : Int) (expired_at : Nat → Bool)
    (sample_ids_at : Nat → List Int) :
    Nat → Nat → List (List Int) → List (List Int)
  | 0, _, acc => acc
  | fuel + 1, k, acc =>
    if (acc.length : Int) < num_samples ∧ expired_at k = false then
      sample_states_go num_samples expired_at sample_ids_at fuel (k + 1)
        (acc ++ [sample_ids_at k])
    else
      acc

/-- Embedding of `sample_states_and_return_abstract_state_ids` with the task-dependent
pieces (initial-state abstract ids, random-walk sampler, countdown timer)
supplied as oracles. -/
def sample_states_and_return_abstract_state_ids (init_ids : List Int) (num_samples : Int)
    (expired_at : Nat → Bool) (sample_ids_at : Nat → List Int) : List (List Int) :=
  sample_states_go num_samples expired_at sample_ids_at num_samples.toNat 0 [init_ids]

lemma sample_states_go_extends (num_samples : Int) (expired_at : Nat → Bool)
    (sample_ids_at : Nat → List Int) :
    ∀ (fuel k : Nat) (acc : List (List Int)),
      ∃ t, sample_states_go num_samples expired_at sample_ids_at fuel k acc = acc ++ t := by
  intro fuel
  induction fuel with
  | zero => intro k acc; exact ⟨[], by simp [sample_states_go]⟩
  | succ fuel ih =>
    intro k acc
    simp only [sample_states_go]
    by_cases h : (acc.length : Int) < num_samples ∧ expired_at k = false
    · rw [if_pos h]
      obtain ⟨t, ht⟩ := ih (k + 1) (acc ++ [sample_ids_at k])
      exact ⟨[sample_ids_at k] ++ t, by rw [ht, List.append_assoc]⟩
    · rw [if_neg h]
      exact ⟨[], by simp⟩

lemma sample_states_go_length_le (num_samples : Int) (expired_at : Nat → Bool)
    (sample_ids_at : Nat → List Int) :
    ∀ (fuel k : Nat) (acc : List (List Int)), (acc.length : Int) ≤ num_samples →
      ((sample_states_go num_samples expired_at sample_ids_at fuel k acc).length : Int) ≤
        num_samples := by
  intro fuel
  induction fuel with
  | zero => intro k acc hacc; simpa [sample_states_go] using hacc
  | succ fuel ih =>
    intro k acc hacc
    simp only [sample_states_go]
    by_cases h : (acc.length : Int) < num_samples ∧ expired_at k = false
    · rw [if_pos h]
      refine ih (k + 1) _ ?_
      rw [List.length_append, List.length_singleton]
      push_cast
      omega
    · rw [if_neg h]
      exact hacc

/-- C9: for `num_samples ≥ 1` the sampled panel is non-empty, has at most
`num_samples` entries, and its first entry is the initial state's abstract
state ids — unconditionally in the expiry oracle, so in particular also
when the sampling time budget is already expired at call time. -/
theorem sample_states_panel_shape (init_ids : List Int) (num_samples : Int)
    (expired_at : Nat → Bool) (sample_ids_at : Nat → List Int)
    (h : 1 ≤ num_samples) :
    sample_states_and_return_abstract_state_ids init_ids num_samples expired_at
        sample_ids_at ≠ [] ∧
    ((sample_states_and_return_abstract_state_ids init_ids num_samples expired_at
        sample_ids_at).length : Int) ≤ num_samples ∧
    (sample_states_and_return_abstract_state_ids init_ids num_samples expired_at
        sample_ids_at).head? = some init_ids := by
  obtain ⟨t, ht⟩ := sample_states_go_extends num_samples expired_at sample_ids_at
    num_samples.toNat 0 [init_ids]
  rw [sample_states_and_return_abstract_state_ids, ht]
  refine ⟨by simp, ?_, by simp⟩
  rw [← ht]
  apply sample_states_go_length_le
  simpa using h

/-- Witness for C9 at a concrete input: two samples requested but the
timer already expired at call time; the panel is exactly the
initial-state entry. -/
theorem sample_states_panel_shape_witness :
    sample_states_and_return_abstract_state_ids [5] 2 (fun _ => true) (fun _ => [9]) ≠ [] ∧
    ((sample_states_and_return_abstract_state_ids [5] 2 (fun _ => true)
        (fun _ => [9])).length : Int) ≤ 2 ∧
    (sample_states_and_return_abstract_state_ids [5] 2 (fun _ => true)
        (fun _ => [9])).head? = some [5] :=
  sample_states_panel_shape [5] 2 (fun _ => true) (fun _ => [9]) (by decide)

/-! ### Pool generator
(`cost_partitioning_heuristic_collection_generator.cc`, lines 68-214,
`CostPartitioningHeuristicCollectionGenerator::generate_cost_partitionings`)

The external collaborators are oracles in an environment record:
cost-partitioning heuristics are abstract values of a type `CPH`
(evaluated, sized and optimized through oracle fields), the diversifier is
an abstract state `DS` with an acceptance function (it is only constructed
when `diversify` is set, and `is_diverse` is only called then), the
countdown timer is a boolean oracle indexed by the loop iteration at which
`is_expired()` is queried, and the rng shuffle, the random-walk sampler
and the order generator are oracles indexed by the iteration.  The
`optimize_at` oracle is the net effect of the bounded hill-climbing block
on the candidate (the identity when `optimization_time <= 0`).

Two ghost fields instrument the run for the specification: `cp_cost_args`
records the cost vector passed to `cp_function` at each of its three call
sites in this function (each site copies the caller's `costs` into a fresh
`remaining_costs` vector), and `admission_pre_sizes` records the value of
`size_kb` just before each sampling-phase admission.

The sampling `while` loop has no a-priori iteration bound (a diversifier
that keeps rejecting candidates does not grow the pool), so it is embedded
with a `fuel` argument; the returned `completed` flag is `true` iff the
loop exited because its condition became false, i.e. iff the embedded run
corresponds to a terminating C++ run. -/

structure GenEnv (CPH DS : Type) where
  costs : List Int
  max_orders : Int
  max_size_kb : Int
  diversify : Bool
  systematic_generator_orders_hacked : List (List Nat)
  num_abstractions : Nat
  abstract_state_ids_for_init : List Int
  order_for_init : List Nat
  cp_function : List Nat → List Int → List Int → CPH
  compute_heuristic : CPH → List Int → Int
  estimate_size_in_kb : CPH → Int
  diversifier_init : DS
  is_diverse : DS → CPH → Bool × DS
  sys_expired_at : Nat → Bool
  loop_expired_at : Nat → Bool
  shuffled_ids_at : Nat → List Nat
  sample_ids_at : Nat → List Int
  order_for_sample_at : Nat → List Nat
  optimize_at : Nat → CPH → CPH

structure GenState (CPH DS : Type) where
  cp_heuristics : List CPH
  size_kb : Int
  evaluated_orders : Nat
  div_state : DS
  cp_cost_args : List (List Int)
  admission_pre_sizes : List Int

/-- The state at the start of the phase loops (`cp_heuristics` empty,
`size_kb = 0`, `evaluated_orders = 0`); the initial `cp_function` call for
the initial state has already been recorded. -/
def init_state {CPH DS : Type} (env : GenEnv CPH DS) : GenState CPH DS :=
  { cp_heuristics := [], size_kb := 0, evaluated_orders := 0,
    div_state := env.diversifier_init, cp_cost_args := [env.costs],
    admission_pre_sizes := [] }

/-- The cost partitioning computed for the initial state (line 86):
`cp_function(abstractions, order_for_init, remaining_costs,
abstract_state_ids_for_init)` with `remaining_costs` a fresh copy of
`costs`. -/
def cp_for_init {CPH DS : Type} (env : GenEnv CPH DS) : CPH :=
  env.cp_function env.order_for_init env.costs env.abstract_state_ids_for_init

/-- The systematic phase (lines 119-146): one iteration per canonical
order; break once the timer expired and the pool is non-empty; complete
the canonical order, run `cp_function` on a fresh copy of the full costs,
and admit iff there is no diversifier or it accepts.  No size accounting
happens here. -/
def sys_phase {CPH DS : Type} (env : GenEnv CPH DS) :
    List (List Nat) → Nat → GenState CPH DS → GenState CPH DS
  | [], _, s => s
  | sys_order :: rest, k, s =>
    if env.sys_expired_at k = true ∧ s.cp_heuristics.isEmpty = false then
      s
    else
      let order := complete_order sys_order (env.shuffled_ids_at k)
      let cp := env.cp_function order env.costs env.abstract_state_ids_for_init
      let ad := if env.diversify then env.is_diverse s.div_state cp else (true, s.div_state)
      let s' :=
        if ad.1 then
          { s with cp_heuristics := s.cp_heuristics ++ [cp], div_state := ad.2,
                   cp_cost_args := s.cp_cost_args ++ [env.costs] }
        else
          { s with div_state := ad.2, cp_cost_args := s.cp_cost_args ++ [env.costs] }
      sys_phase env rest (k + 1) s'

/-!
The sampling + optimization phase (lines 154-206): loop while the pool is
smaller than `max_orders`, the timer has not expired or the pool is still
empty, and the accumulated size is below `max_size_kb`.  The first
iteration reuses the initial-state order/partition verbatim; later
iterations sample a state and compute a fresh order and partition from a
fresh copy of the full costs.  The candidate is then optimized, admitted
iff there is no diversifier or it accepts, and on admission its size
estimate is added to `size_kb`.
-/

/-- One iteration of the sampling + optimization loop body
(lines 157-205). -/
def sampling_step {CPH DS : Type} (env : GenEnv CPH DS) (cp_init : CPH)
    (s : GenState CPH DS) : GenState CPH DS :=
  let k := s.evaluated_orders
  let cp0 := if k = 0 then cp_init
    else env.cp_function (env.order_for_sample_at k) env.costs (env.sample_ids_at k)
  let s1 := if k = 0 then s
    else { s with cp_cost_args := s.cp_cost_args ++ [env.costs] }
  let cp := env.optimize_at k cp0
  let ad := if env.diversify then env.is_diverse s1.div_state cp else (true, s1.div_state)
  let s2 :=
    if ad.1 then
      { s1 with cp_heuristics := s1.cp_heuristics ++ [cp],
                size_kb := s1.size_kb + env.estimate_size_in_kb cp,
                admission_pre_sizes := s1.admission_pre_sizes ++ [s1.size_kb],
                div_state := ad.2 }
    else
      { s1 with div_state := ad.2 }
  { s2 with evaluated_orders := k + 1 }

/-- The `while` condition of the sampling + optimization loop (lines
154-156). -/
def sampling_cond {CPH DS : Type} (env : GenEnv CPH DS) (s : GenState CPH DS) : Prop :=
  (s.cp_heuristics.length : Int) < env.max_orders ∧
  (env.loop_expired_at s.evaluated_orders = false ∨ s.cp_heuristics.isEmpty = true) ∧
  s.size_kb < env.max_size_kb

instance {CPH DS : Type} (env : GenEnv CPH DS) (s : GenState CPH DS) :
    Decidable (sampling_cond env s) := by
  unfold sampling_cond
  infer_instance

def sampling_loop {CPH DS : Type} (env : GenEnv CPH DS) (cp_init : CPH) :
    Nat → GenState CPH DS → GenState CPH DS × Bool
  | 0, s => (s, false)
  | fuel + 1, s =>
    if sampling_cond env s then
      sampling_loop env cp_init fuel (sampling_step env cp_init s)
    else
      (s, true)

structure GenRun (CPH : Type) where
  cp_heuristics : List CPH
  size_kb : Int
  evaluated_orders : Nat
  cp_cost_args : List (List Int)
  admission_pre_sizes : List Int
  completed : Bool

/-- Embedding of `generate_cost_partitionings`: compute the initial-state partition
from the full costs; if its value at the initial state's abstract ids is
`INF`, certify unsolvability and return the singleton pool; otherwise run
the systematic phase over the canonical orders and then the sampling +
optimization phase. -/
def generate_cost_partitionings {CPH DS : Type} (env : GenEnv CPH DS) (fuel : Nat) :
    GenRun CPH :=
  let cp0 := cp_for_init env
  let init_h := env.compute_heuristic cp0 env.abstract_state_ids_for_init
  if init_h = INF then
    { cp_heuristics := [cp0], size_kb := 0, evaluated_orders := 0,
      cp_cost_args := [env.costs], admission_pre_sizes := [], completed := true }
  else
    let s1 := sys_phase env env.systematic_generator_orders_hacked 0 (init_state env)
    let r := sampling_loop env cp0 fuel s1
    { cp_heuristics := r.1.cp_heuristics, size_kb := r.1.size_kb,
      evaluated_orders := r.1.evaluated_orders, cp_cost_args := r.1.cp_cost_args,
      admission_pre_sizes := r.1.admission_pre_sizes, completed := r.2 }

section GeneratorLemmas

variable {CPH DS : Type}

lemma sys_phase_size_kb (env : GenEnv CPH DS) :
    ∀ (l : List (List Nat)) (k : Nat) (s : GenState CPH DS),
      (sys_phase env l k s).size_kb = s.size_kb := by
  intro l
  induction l with
  | nil => intro k s; rfl
  | cons o rest ih =>
    intro k s
    simp only [sys_phase]
    split
    · rfl
    · rw [ih]
      split <;> split <;> rfl

lemma sys_phase_admission_pre_sizes (env : GenEnv CPH DS) :
    ∀ (l : List (List Nat)) (k : Nat) (s : GenState CPH DS),
      (sys_phase env l k s).admission_pre_sizes = s.admission_pre_sizes := by
  intro l
  induction l with
  | nil => intro k s; rfl
  | cons o rest ih =>
    intro k s
    simp only [sys_phase]
    split
    · rfl
    · rw [ih]
      split <;> split <;> rfl

lemma sys_phase_evaluated_orders (env : GenEnv CPH DS) :
    ∀ (l : List (List Nat)) (k : Nat) (s : GenState CPH DS),
      (sys_phase env l k s).evaluated_orders = s.evaluated_orders := by
  intro l
  induction l with
  | nil => intro k s; rfl
  | cons o rest ih =>
    intro k s
    simp only [sys_phase]
    split
    · rfl
    · rw [ih]
      split <;> split <;> rfl

lemma sys_phase_length_le (env : GenEnv CPH DS) :
    ∀ (l : List (List Nat)) (k : Nat) (s : GenState CPH DS),
      (sys_phase env l k s).cp_heuristics.length ≤ s.cp_heuristics.length + l.length := by
  intro l
  induction l with
  | nil => intro k s; simp [sys_phase]
  | cons o rest ih =>
    intro k s
    simp only [sys_phase]
    split
    · simp
    · refine le_trans (ih _ _) ?_
      split <;> split <;> simp <;> omega

lemma sys_phase_cost_args (env : GenEnv CPH DS) :
    ∀ (l : List (List Nat)) (k : Nat) (s : GenState CPH DS),
      (∀ c ∈ s.cp_cost_args, c = env.costs) →
      ∀ c ∈ (sys_phase env l k s).cp_cost_args, c = env.costs := by
  intro l
  induction l with
  | nil => intro k s hs; exact hs
  | cons o rest ih =>
    intro k s hs
    simp only [sys_phase]
    split
    · exact hs
    · apply ih
      have hstep : ∀ c ∈ s.cp_cost_args ++ [env.costs], c = env.costs := by
        intro c hc
        rcases List.mem_append.mp hc with hc | hc
        · exact hs c hc
        · rw [List.mem_singleton] at hc
          exact hc
      split <;> split <;> exact hstep

/-- The systematic phase is exempt from the size cap: its behaviour does
not depend on `max_size_kb` at all. -/
lemma sys_phase_ignores_max_size_kb (env : GenEnv CPH DS) (m : Int) :
    ∀ (l : List (List Nat)) (k : Nat) (s : GenState CPH DS),
      sys_phase { env with max_size_kb := m } l k s = sys_phase env l k s := by
  intro l
  induction l with
  | nil => intro k s; rfl
  | cons o rest ih =>
    intro k s
    simp only [sys_phase]
    split
    · rfl
    · rw [ih]

/-- Case analysis of a sampling iteration: either the candidate was
rejected (pool, size and pre-size trace untouched) or it was admitted
(one candidate appended, its size estimate added, the pre-admission size
recorded); `evaluated_orders` always increments and the cost-argument
trace grows by nothing or by one copy of the full costs. -/
lemma sampling_step_spec (env : GenEnv CPH DS) (cp_init : CPH) (s : GenState CPH DS) :
    ((sampling_step env cp_init s).evaluated_orders = s.evaluated_orders + 1) ∧
    ((sampling_step env cp_init s).cp_cost_args = s.cp_cost_args ∨
      (sampling_step env cp_init s).cp_cost_args = s.cp_cost_args ++ [env.costs]) ∧
    (((sampling_step env cp_init s).cp_heuristics = s.cp_heuristics ∧
        (sampling_step env cp_init s).size_kb = s.size_kb ∧
        (sampling_step env cp_init s).admission_pre_sizes = s.admission_pre_sizes) ∨
      (∃ cp, (sampling_step env cp_init s).cp_heuristics = s.cp_heuristics ++ [cp] ∧
        (sampling_step env cp_init s).size_kb = s.size_kb + env.estimate_size_in_kb cp ∧
        (sampling_step env cp_init s).admission_pre_sizes =
          s.admission_pre_sizes ++ [s.size_kb])) := by
  refine ⟨rfl, ?_, ?_⟩
  · simp only [sampling_step, apply_ite GenState.cp_cost_args, ite_self]
    by_cases hk : s.evaluated_orders = 0
    · rw [if_pos hk]
      exact Or.inl rfl
    · rw [if_neg hk]
      exact Or.inr rfl
  · simp only [sampling_step]
    by_cases hk : s.evaluated_orders = 0
    · simp only [if_pos hk]
      by_cases hacc : ((if env.diversify = true
          then env.is_diverse s.div_state (env.optimize_at s.evaluated_orders cp_init)
          else (true, s.div_state)).1 = true)
      · rw [if_pos hacc]
        exact Or.inr ⟨_, rfl, rfl, rfl⟩
      · rw [if_neg hacc]
        exact Or.inl ⟨rfl, rfl, rfl⟩
    · simp only [if_neg hk]
      by_cases hacc : ((if env.diversify = true
          then env.is_diverse s.div_state (env.optimize_at s.evaluated_orders
            (env.cp_function (env.order_for_sample_at s.evaluated_orders) env.costs
              (env.sample_ids_at s.evaluated_orders)))
          else (true, s.div_state)).1 = true)
      · rw [if_pos hacc]
        exact Or.inr ⟨_, rfl, rfl, rfl⟩
      · rw [if_neg hacc]
        exact Or.inl ⟨rfl, rfl, rfl⟩

/-- The sampling loop can only push the pool size up to `max_orders`; its
result never exceeds the larger of the entry pool size and `max_orders`. -/
lemma sampling_loop_length_le (env : GenEnv CPH DS) (cp_init : CPH) :
    ∀ (fuel : Nat) (s : GenState CPH DS),
      (((sampling_loop env cp_init fuel s).1.cp_heuristics.length : Int)) ≤
        max (s.cp_heuristics.length : Int) env.max_orders := by
  intro fuel
  induction fuel with
  | zero =>
    intro s
    simp only [sampling_loop]
    exact le_max_left _ _
  | succ fuel ih =>
    intro s
    simp only [sampling_loop]
    split
    · next hcond =>
      refine le_trans (ih _) ?_
      rcases (sampling_step_spec env cp_init s).2.2 with ⟨hcp, _, _⟩ | ⟨cp, hcp, _, _⟩
      · rw [hcp]
      · apply max_le
        · rw [hcp, List.length_append, List.length_singleton]
          have := hcond.1
          push_cast
          refine le_trans ?_ (le_max_right (s.cp_heuristics.length : Int) env.max_orders)
          omega
        · exact le_max_right _ _
    · exact le_max_left _ _

/-- When the loop reports normal completion, the loop condition fails at
the returned state. -/
lemma sampling_loop_completed_not_cond (env : GenEnv CPH DS) (cp_init : CPH) :
    ∀ (fuel : Nat) (s : GenState CPH DS),
      (sampling_loop env cp_init fuel s).2 = true →
      ¬ sampling_cond env (sampling_loop env cp_init fuel s).1 := by
  intro fuel
  induction fuel with
  | zero =>
    intro s h
    simp only [sampling_loop] at h
    cases h
  | succ fuel ih =>
    intro s
    simp only [sampling_loop]
    split
    · next hcond => exact ih _
    · next hcond =>
      intro _
      exact hcond

/-- While the pool stays empty no admission has happened, so the size
accumulator stays zero. -/
lemma sampling_loop_empty_size (env : GenEnv CPH DS) (cp_init : CPH) :
    ∀ (fuel : Nat) (s : GenState CPH DS),
      (s.cp_heuristics = [] → s.size_kb = 0) →
      ((sampling_loop env cp_init fuel s).1.cp_heuristics = [] →
        (sampling_loop env cp_init fuel s).1.size_kb = 0) := by
  intro fuel
  induction fuel with
  | zero =>
    intro s hs
    simpa only [sampling_loop] using hs
  | succ fuel ih =>
    intro s hs
    simp only [sampling_loop]
    split
    · next hcond =>
      refine ih _ ?_
      rcases (sampling_step_spec env cp_init s).2.2 with ⟨hcp, hsz, _⟩ | ⟨cp, hcp, _, _⟩
      · intro h
        rw [hsz]
        exact hs (by rwa [hcp] at h)
      · intro h
        rw [hcp] at h
        exact absurd h (by simp)
    · exact hs

/-- Every recorded pre-admission size was below the size cap when the
admission happened. -/
lemma sampling_loop_pre_sizes (env : GenEnv CPH DS) (cp_init : CPH) :
    ∀ (fuel : Nat) (s : GenState CPH DS),
      (∀ x ∈ s.admission_pre_sizes, x < env.max_size_kb) →
      ∀ x ∈ (sampling_loop env cp_init fuel s).1.admission_pre_sizes, x < env.max_size_kb := by
  intro fuel
  induction fuel with
  | zero =>
    intro s hs
    simpa only [sampling_loop] using hs
  | succ fuel ih =>
    intro s hs
    simp only [sampling_loop]
    split
    · next hcond =>
      refine ih _ ?_
      rcases (sampling_step_spec env cp_init s).2.2 with ⟨_, _, hpre⟩ | ⟨cp, _, _, hpre⟩
      · rw [hpre]
        exact hs
      · rw [hpre]
        intro x hx
        rcases List.mem_append.mp hx with hx | hx
        · exact hs x hx
        · rw [List.mem_singleton] at hx
          subst hx
          exact hcond.2.2
    · exact hs

/-- Every cost vector recorded at a `cp_function` call site during the
sampling loop is the full original cost vector. -/
lemma sampling_loop_cost_args (env : GenEnv CPH DS) (cp_init : CPH) :
    ∀ (fuel : Nat) (s : GenState CPH DS),
      (∀ c ∈ s.cp_cost_args, c = env.costs) →
      ∀ c ∈ (sampling_loop env cp_init fuel s).1.cp_cost_args, c = env.costs := by
  intro fuel
  induction fuel with
  | zero =>
    intro s hs
    simpa only [sampling_loop] using hs
  | succ fuel ih =>
    intro s hs
    simp only [sampling_loop]
    split
    · next hcond =>
      refine ih _ ?_
      rcases (sampling_step_spec env cp_init s).2.1 with hargs | hargs
      · rw [hargs]
        exact hs
      · rw [hargs]
        intro c hc
        rcases List.mem_append.mp hc with hc | hc
        · exact hs c hc
        · rw [List.mem_singleton] at hc
          exact hc
    · exact hs

end GeneratorLemmas

/-! ### Concrete generator environments used as test inputs -/

/-- A small concrete environment: one abstraction, all budgets `1`, the
time budget already expired at call time, diversification off, no
canonical systematic orders. -/
def env_w : GenEnv Unit Unit where
  costs := [1]
  max_orders := 1
  max_size_kb := 1
  diversify := false
  systematic_generator_orders_hacked := []
  num_abstractions := 1
  abstract_state_ids_for_init := [0]
  order_for_init := [0]
  cp_function := fun _ _ _ => ()
  compute_heuristic := fun _ _ => 0
  estimate_size_in_kb := fun _ => 1
  diversifier_init := ()
  is_diverse := fun d _ => (true, d)
  sys_expired_at := fun _ => true
  loop_expired_at := fun _ => true
  shuffled_ids_at := fun _ => [0]
  sample_ids_at := fun _ => [0]
  order_for_sample_at := fun _ => [0]
  optimize_at := fun _ cp => cp

/-- Like `env_w` but with a max order count of `0` and time remaining. -/
def env_c1 : GenEnv Unit Unit :=
  { env_w with max_orders := 0, max_size_kb := 10, loop_expired_at := fun _ => false }

/-- Like `env_w` but the initial-state partition evaluates to `INF`. -/
def env_c2 : GenEnv Unit Unit :=
  { env_w with compute_heuristic := fun _ _ => INF }

/-- Two abstractions, two canonical systematic orders, a max order count
of `1`, diversification off and time remaining. -/
def env_c3 : GenEnv Unit Unit :=
  { env_w with
      max_orders := 1, max_size_kb := 100,
      systematic_generator_orders_hacked := [[0], [1]],
      num_abstractions := 2,
      costs := [1, 1],
      abstract_state_ids_for_init := [0, 0],
      order_for_init := [0, 1],
      shuffled_ids_at := fun _ => [0, 1],
      sys_expired_at := fun _ => false,
      loop_expired_at := fun _ => false }

/-- Like `env_w` but with a size cap of `1` and candidates of size `5`. -/
def env_c4 : GenEnv Unit Unit :=
  { env_w with
      max_orders := 5, max_size_kb := 1,
      estimate_size_in_kb := fun _ => 5,
      loop_expired_at := fun _ => false }

/-! ### Claim theorems about the pool generator -/

/-- C1 counterexample: the claim asserts the returned pool has at least
one member for *every* budget configuration, but with a max order count
of `0` (and likewise with a max size of `0`) the sampling phase's first
iteration is never attempted — its loop condition fails outright — and
the generator returns an empty pool even though the run terminates
normally, the initial state is solvable, and time remains. -/
theorem generate_cost_partitionings_empty_pool_counterexample :
    (generate_cost_partitionings env_c1 1).completed = true ∧
    env_c1.compute_heuristic (cp_for_init env_c1) env_c1.abstract_state_ids_for_init ≠ INF ∧
    (generate_cost_partitionings env_c1 1).cp_heuristics = [] := by
  decide

/-- C1 (amended): for every *terminating* run of
`generate_cost_partitionings` with `max_orders ≥ 1` and `max_size_kb ≥ 1`,
the returned pool is non-empty — even when the time budget is zero at
call time, because the sampling phase's first iteration is attempted
whenever the pool is still empty. -/
theorem generate_cost_partitionings_nonempty {CPH DS : Type} (env : GenEnv CPH DS)
    (fuel : Nat) (hmo : 1 ≤ env.max_orders) (hms : 1 ≤ env.max_size_kb)
    (hcomp : (generate_cost_partitionings env fuel).completed = true) :
    (generate_cost_partitionings env fuel).cp_heuristics ≠ [] := by
  by_cases hinf :
      env.compute_heuristic (cp_for_init env) env.abstract_state_ids_for_init = INF
  · simp only [generate_cost_partitionings, if_pos hinf]
    simp
  · simp only [generate_cost_partitionings, if_neg hinf] at hcomp ⊢
    intro hempty
    have hnc := sampling_loop_completed_not_cond env (cp_for_init env) fuel
      (sys_phase env env.systematic_generator_orders_hacked 0 (init_state env)) hcomp
    apply hnc
    have hz := sampling_loop_empty_size env (cp_for_init env) fuel
      (sys_phase env env.systematic_generator_orders_hacked 0 (init_state env))
      (fun _ => by rw [sys_phase_size_kb]; rfl) hempty
    refine ⟨?_, Or.inr ?_, ?_⟩
    · rw [hempty]
      simp only [List.length_nil, Nat.cast_zero]
      omega
    · rw [hempty]
      rfl
    · rw [hz]
      omega

/-- Witness for the amended C1 at a concrete input: both budgets are `1`,
the timer is expired from the start, and the pool still receives the
initial-state partition. -/
theorem generate_cost_partitionings_nonempty_witness :
    (generate_cost_partitionings env_w 2).cp_heuristics ≠ [] :=
  generate_cost_partitionings_nonempty env_w 2 (by decide) (by decide) (by decide)

/-- C2: if the initial-state partition evaluates to `INF` at the initial
state's abstract ids, the returned pool is exactly the singleton of that
partition; no systematic or sampled orders are generated (the only
`cp_function` call on record is the initial one, and no sampling
iteration ran). -/
theorem generate_cost_partitionings_unsolvable_singleton {CPH DS : Type}
    (env : GenEnv CPH DS) (fuel : Nat)
    (hinf : env.compute_heuristic (cp_for_init env) env.abstract_state_ids_for_init = INF) :
    (generate_cost_partitionings env fuel).cp_heuristics = [cp_for_init env] ∧
    (generate_cost_partitionings env fuel).cp_cost_args = [env.costs] ∧
    (generate_cost_partitionings env fuel).evaluated_orders = 0 := by
  refine ⟨?_, ?_, ?_⟩ <;> simp only [generate_cost_partitionings, if_pos hinf]

/-- Witness for C2 at a concrete input where the initial-state partition
evaluates to `INF`. -/
theorem generate_cost_partitionings_unsolvable_singleton_witness :
    (generate_cost_partitionings env_c2 3).cp_heuristics = [cp_for_init env_c2] ∧
    (generate_cost_partitionings env_c2 3).cp_cost_args = [env_c2.costs] ∧
    (generate_cost_partitionings env_c2 3).evaluated_orders = 0 :=
  generate_cost_partitionings_unsolvable_singleton env_c2 3 rfl

/-- C3 counterexample: the systematic phase admits orders without any
`max_orders` check, so with two canonical orders and `max_orders = 1` a
normally terminating, solvable run returns a pool of size `2`, exceeding
the configured max count. -/
theorem generate_cost_partitionings_max_orders_counterexample :
    (generate_cost_partitionings env_c3 1).completed = true ∧
    env_c3.compute_heuristic (cp_for_init env_c3) env_c3.abstract_state_ids_for_init ≠ INF ∧
    ¬ (((generate_cost_partitionings env_c3 1).cp_heuristics.length : Int) ≤
        env_c3.max_orders) := by
  decide

/-- C3 (amended): for every run that does not end with the
unsolvable-singleton outcome, the pool size is at most the larger of
`max_orders` and the number of canonical systematic orders: the sampling
phase never pushes the pool above `max_orders`, while the systematic
phase can admit up to one partition per canonical order regardless of
`max_orders`. -/
theorem generate_cost_partitionings_pool_size_bound {CPH DS : Type}
    (env : GenEnv CPH DS) (fuel : Nat)
    (hinf : env.compute_heuristic (cp_for_init env) env.abstract_state_ids_for_init ≠ INF) :
    ((generate_cost_partitionings env fuel).cp_heuristics.length : Int) ≤
      max ((env.systematic_generator_orders_hacked.length : Int)) env.max_orders := by
  simp only [generate_cost_partitionings, if_neg hinf]
  refine le_trans (sampling_loop_length_le env (cp_for_init env) fuel _) ?_
  apply max_le
  · refine le_trans ?_ (le_max_left _ _)
    have h := sys_phase_length_le env env.systematic_generator_orders_hacked 0 (init_state env)
    have h0 : (init_state env).cp_heuristics.length = 0 := rfl
    rw [h0, Nat.zero_add] at h
    exact_mod_cast h
  · exact le_max_right _ _

/-- Witness for the amended C3 at a concrete input with two systematic
orders and `max_orders = 1`. -/
theorem generate_cost_partitionings_pool_size_bound_witness :
    ((generate_cost_partitionings env_c3 1).cp_heuristics.length : Int) ≤
      max ((env_c3.systematic_generator_orders_hacked.length : Int)) env_c3.max_orders :=
  generate_cost_partitionings_pool_size_bound env_c3 1 (by decide)

/-- C4 counterexample: the size cap is checked before an admission but
the admitted partition's size is added afterwards, so the accumulated
size of sampling-phase admissions can exceed `max_size_kb`: with a cap of
`1` and a candidate of size `5`, the run terminates with accumulated size
`5`. -/
theorem generate_cost_partitionings_size_cap_counterexample :
    (generate_cost_partitionings env_c4 2).completed = true ∧
    (generate_cost_partitionings env_c4 2).size_kb = 5 ∧
    env_c4.max_size_kb = 1 ∧
    ¬ ((generate_cost_partitionings env_c4 2).size_kb ≤ env_c4.max_size_kb) := by
  decide

/-- C4 (amended): the size cap is a pre-admission guard — every
sampling-phase admission happens only when the accumulated size before it
is strictly below `max_size_kb` (so only the final admission can
overshoot) — while the systematic phase is exempt: it adds nothing to the
accumulated size, records no admission sizes, and its behaviour does not
depend on `max_size_kb` at all. -/
theorem generate_cost_partitionings_size_cap_guard {CPH DS : Type}
    (env : GenEnv CPH DS) (fuel : Nat) :
    (∀ x ∈ (generate_cost_partitionings env fuel).admission_pre_sizes, x < env.max_size_kb) ∧
    (∀ (l : List (List Nat)) (k : Nat) (s : GenState CPH DS),
      (sys_phase env l k s).size_kb = s.size_kb ∧
      (sys_phase env l k s).admission_pre_sizes = s.admission_pre_sizes) ∧
    (∀ (m : Int) (l : List (List Nat)) (k : Nat) (s : GenState CPH DS),
      sys_phase { env with max_size_kb := m } l k s = sys_phase env l k s) := by
  refine ⟨?_,
    fun l k s => ⟨sys_phase_size_kb env l k s, sys_phase_admission_pre_sizes env l k s⟩,
    fun m l k s => sys_phase_ignores_max_size_kb env m l k s⟩
  by_cases hinf :
      env.compute_heuristic (cp_for_init env) env.abstract_state_ids_for_init = INF
  · simp only [generate_cost_partitionings, if_pos hinf]
    intro x hx
    cases hx
  · simp only [generate_cost_partitionings, if_neg hinf]
    apply sampling_loop_pre_sizes
    rw [sys_phase_admission_pre_sizes]
    intro x hx
    cases hx

/-- Witness for the amended C4 at a concrete input: the one admission of
the `env_c4` run was made with accumulated size `0`, strictly below the
cap. -/
theorem generate_cost_partitionings_size_cap_guard_witness :
    (0 : Int) ∈ (generate_cost_partitionings env_c4 2).admission_pre_sizes ∧
    (0 : Int) < env_c4.max_size_kb :=
  ⟨by decide, (generate_cost_partitionings_size_cap_guard env_c4 2).1 0 (by decide)⟩

/-- C10: `generate_cost_partitionings` passes the cp function a fresh
copy of the full original costs at each of its call sites (initial
partition, systematic phase, sampling phase), so every recorded cost
argument equals the caller's base cost vector, independently of which
earlier candidates were computed or admitted. -/
theorem generate_cost_partitionings_full_costs_at_every_cp_call {CPH DS : Type}
    (env : GenEnv CPH DS) (fuel : Nat) :
    ∀ c ∈ (generate_cost_partitionings env fuel).cp_cost_args, c = env.costs := by
  by_cases hinf :
      env.compute_heuristic (cp_for_init env) env.abstract_state_ids_for_init = INF
  · simp only [generate_cost_partitionings, if_pos hinf]
    intro c hc
    rw [List.mem_singleton] at hc
    exact hc
  · simp only [generate_cost_partitionings, if_neg hinf]
    apply sampling_loop_cost_args
    apply sys_phase_cost_args
    intro c hc
    simp only [init_state, List.mem_singleton] at hc
    exact hc

/-- Witness for C10 at a concrete input: the one recorded cost argument
of the `env_w` run is its base cost vector `[1]`. -/
theorem generate_cost_partitionings_full_costs_at_every_cp_call_witness :
    ([1] : List Int) ∈ (generate_cost_partitionings env_w 2).cp_cost_args ∧
    ([1] : List Int) = env_w.costs :=
  ⟨by decide,
   generate_cost_partitionings_full_costs_at_every_cp_call env_w 2 [1] (by decide)⟩

end CostSaturation
